import Mathlib

/-!
# ThinkFast browser extension — verification of the background tracking logic

This file gives a shallow embedding, in Lean 4, of the parts of the ThinkFast
browser productivity extension that its specification makes claims about:

* URL pattern matching for tracked sites (`matchPattern`, from
  `src/background/usage-monitor.ts`);
* the usage-monitor session state machine (`onTabActivated`,
  `endCurrentSession`, `onBrowserBlurred`, …);
* session bookkeeping into daily statistics (`updateDailyStats`, `endSession`,
  `recordInterventionResult`, from the session detector);
* the intervention scheduler's snooze logic (`isSnoozed`, `shouldShowReminder`,
  `shouldShowTimer`, `getRemainingSnoozeTime`);
* the intervention engine's content-weighting and history
  (`calculateWeights`, `weightedRandom`, `trackShownContent`);
* the CSS selector scoping used by the content script (`scopeSelector`).

Conventions of the embedding:

* JavaScript numbers holding millisecond timestamps are modelled as `ℕ`
  (`Date.now()` values are non-negative integers in any real execution);
  arithmetic that divides (minutes from milliseconds) is done in `ℚ`.
* JavaScript truthiness tests on possibly-null fields are modelled explicitly:
  `null` ↦ `none`, and the number `0` / the empty string are falsy even when
  present (`truthyNum`, `truthyStr`).
* `Math.random()` is modelled as an explicit parameter `r` with `0 ≤ r < 1`.
* JavaScript `Record<string, number>` objects are modelled as association
  lists with in-place update and insertion at the end, matching property
  assignment semantics.
-/

/-! ## URL pattern matching (`UsageMonitor.matchPattern`)

The source builds a regular expression from a Chrome-style match pattern by
three global string replacements — `.` ↦ `\.`, `*` ↦ `.*`, `?` ↦ `\?` — adds
`^`/`$` anchors and tests the URL with JavaScript's `RegExp`.

The embedding performs the same three replacements on the character list,
then compiles the resulting regex text with `parseToks` into a token list
(an atom, optionally followed by a `*` quantifier).  `parseToks` returns
`none` on regex metacharacters outside this fragment — in particular on the
inputs (such as an unterminated character class `[`) where `new RegExp`
throws and the source's `catch` returns `false`.  Anchored (whole-string)
matching of a token list is `rMatch`, a standard NFA-style simulation that
steps through the URL one character at a time.
-/

/-- A regex atom of the fragment produced by the pattern translation:
a literal character or `.` (any character). -/
inductive RAtom where
  | rch (c : Char)
  | rany
deriving DecidableEq, Repr

/-- Does an atom match one character? -/
def atomMatch : RAtom → Char → Bool
  | .rch c, d => c == d
  | .rany, _ => true

/-- A compiled regex of the fragment: each atom is optionally starred. -/
abbrev RToks := List (RAtom × Bool)

/-- A token list accepts the empty string iff every token is starred. -/
def allStarred : RToks → Bool
  | [] => true
  | (_, true) :: ts => allStarred ts
  | (_, false) :: _ => false

/-- Positions reachable from a token position without consuming a character:
a starred token may be skipped. -/
def epsClosure : RToks → List RToks
  | [] => [[]]
  | (a, true) :: ts => ((a, true) :: ts) :: epsClosure ts
  | (a, false) :: ts => [(a, false) :: ts]

/-- One NFA step: consume character `c` from every position. A starred token
stays current after consuming (it may match again); an unstarred token is
passed. -/
def stepChar (c : Char) (states : List RToks) : List RToks :=
  (states.flatMap epsClosure).filterMap fun ts =>
    match ts with
    | [] => none
    | (a, star) :: rest =>
      if atomMatch a c then some (if star then (a, star) :: rest else rest)
      else none

/-- Run the NFA over the whole input. -/
def rMatchAux : List Char → List RToks → Bool
  | [], states => states.any fun ts => allStarred ts
  | c :: cs, states => rMatchAux cs (stepChar c states)

/-- Anchored (whole-string) matching of a token list against a string. -/
def rMatch (ts : RToks) (u : List Char) : Bool :=
  rMatchAux u [ts]

/-- `pattern.replace(/\./g, '\\.')` — escape every dot. -/
def escapeDots : List Char → List Char
  | [] => []
  | c :: cs => (if c = '.' then ['\\', '.'] else [c]) ++ escapeDots cs

/-- `pattern.replace(/\*/g, '.*')` — every `*` becomes `.*`. -/
def starToDotStar : List Char → List Char
  | [] => []
  | c :: cs => (if c = '*' then ['.', '*'] else [c]) ++ starToDotStar cs

/-- `pattern.replace(/\?/g, '\\?')` — escape every question mark. -/
def escapeQmarks : List Char → List Char
  | [] => []
  | c :: cs => (if c = '?' then ['\\', '?'] else [c]) ++ escapeQmarks cs

/-- The regex text the source builds (between the `^`/`$` anchors, which the
embedding realises as `rMatch`'s whole-string semantics): the three global
replacements applied in source order. -/
def toRegexBody (pattern : List Char) : List Char :=
  escapeQmarks (starToDotStar (escapeDots pattern))

/-- Regex metacharacters outside the fragment `parseToks` compiles.  On any
of these the model conservatively reports a failed compilation. -/
def isRegexMeta (c : Char) : Bool :=
  c = '\\' || c = '^' || c = '$' || c = '.' || c = '*' || c = '+' ||
  c = '?' || c = '(' || c = ')' || c = '[' || c = ']' || c = '{' ||
  c = '}' || c = '|'

/-- A lexical token of the regex text: an atom (escaped character, plain
character or `.`), or a `*` quantifier. -/
inductive LexTok where
  | atom (a : RAtom)
  | star
deriving DecidableEq, Repr

/-- Lex regex text: `\\c` and plain characters become literal atoms, `.`
the any-character atom, `*` a quantifier token.  A trailing lone backslash
or a metacharacter outside the fragment fails the compilation. -/
def lexAtoms : List Char → Option (List LexTok)
  | [] => some []
  | c :: rest =>
    if c = '\\' then
      match rest with
      | [] => none
      | c2 :: rest2 => (lexAtoms rest2).map (LexTok.atom (.rch c2) :: ·)
    else if c = '.' then (lexAtoms rest).map (LexTok.atom .rany :: ·)
    else if c = '*' then (lexAtoms rest).map (LexTok.star :: ·)
    else if isRegexMeta c then none
    else (lexAtoms rest).map (LexTok.atom (.rch c) :: ·)

/-- Attach each `*` quantifier to the atom before it.  A `*` with no atom
before it (on which JavaScript's `RegExp` throws with *nothing to repeat*)
fails the compilation. -/
def groupStars : List LexTok → Option RToks
  | [] => some []
  | .star :: _ => none
  | .atom a :: .star :: rest => (groupStars rest).map (fun ts => (a, true) :: ts)
  | .atom a :: rest => (groupStars rest).map (fun ts => (a, false) :: ts)

/-- Compile regex text into tokens: lex it, then attach the quantifiers.
On inputs outside the fragment — in particular the unterminated character
class `[`, on which JavaScript's `RegExp` constructor throws and the
source's `catch` returns `false` — compilation fails. -/
def parseToks (l : List Char) : Option RToks :=
  (lexAtoms l).bind groupStars

/-- `UsageMonitor.matchPattern`: translate the pattern to a regex and test
the URL against it, anchored; a failed regex compilation yields `false`. -/
def matchPattern (pattern url : String) : Bool :=
  match parseToks (toRegexBody pattern.toList) with
  | some ts => rMatch ts url.toList
  | none => false

/-- The token list described by the specification's words: read the pattern
directly, `*` becoming a starred any-character atom, every other character a
literal. -/
def specToks : List Char → RToks
  | [] => []
  | c :: rest =>
    if c = '*' then (.rany, true) :: specToks rest
    else (.rch c, false) :: specToks rest

/-- The lexical tokens the translated regex text of a pattern lexes to:
`*` contributes `.` followed by the quantifier, every other character a
literal atom. -/
def specLex : List Char → List LexTok
  | [] => []
  | c :: rest =>
    if c = '*' then LexTok.atom .rany :: LexTok.star :: specLex rest
    else LexTok.atom (.rch c) :: specLex rest

/-- Pattern characters for which the translated regex stays inside the
compiled fragment: everything except `\ ^ $ + ? ( ) [ ] { } |`
(`.`, `*` and `?` are fine — the translation escapes or rewrites them;
`?` is listed in `isRegexMeta` only for its untranslated occurrence). -/
def patternCharOk (c : Char) : Bool :=
  !(c = '\\' || c = '^' || c = '$' || c = '+' || c = '(' || c = ')' ||
    c = '[' || c = ']' || c = '{' || c = '}' || c = '|')

/-- A pattern is plain when all its characters are `patternCharOk`. -/
def patternOk (pattern : String) : Bool :=
  pattern.toList.all patternCharOk

/-! ## Data model -/

/-- A user-configured tracked site (`TrackedSite` in `types/models.ts`). -/
structure TrackedSite where
  pattern : String
  name : String
  icon : Option String
  dailyLimitMinutes : ℕ
deriving DecidableEq, Repr

/-- A usage session (`Session` in `types/models.ts`); the `id` string is the
generated UUID. -/
structure Session where
  id : String
  siteName : String
  url : String
  startTime : ℕ
  lastActiveTime : ℕ
  totalDuration : ℕ
  timerStartTime : ℕ
  lastTimerAlertTime : ℕ
  dailyLimitMinutes : ℕ
deriving DecidableEq, Repr

/-- Daily statistics (`DailyStats` in `types/models.ts`); `siteBreakdown` is
a `Record<string, number>` modelled as an association list. -/
structure DailyStats where
  date : String
  totalMinutes : ℚ
  sessionCount : ℕ
  siteBreakdown : List (String × ℚ)
  interventionsShown : ℕ
  goBackCount : ℕ
  proceedCount : ℕ
  currentStreak : ℕ
  longestStreak : ℕ
deriving DecidableEq, Repr

/-- The extension settings fields read by the code under verification
(`Settings` in `types/models.ts`, restricted to the fields the background
logic consults). -/
structure Settings where
  timerDurationMinutes : ℕ
  alwaysShowReminder : Bool
  trackedSites : List TrackedSite
deriving DecidableEq, Repr

/-! ## JavaScript truthiness helpers -/

/-- Truthiness of a nullable JavaScript number: `null` and `0` are falsy. -/
def truthyNum : Option ℕ → Bool
  | none => false
  | some n => n != 0

/-- Truthiness of a nullable JavaScript string: `null` and `""` are falsy. -/
def truthyStr : Option String → Bool
  | none => false
  | some s => s != ""

/-! ## Usage monitor (`src/background/usage-monitor.ts`)

The monitor's mutable fields form `MonitorState`.  The service worker drives
it with tab, window-focus and idle events; `MEvent`/`mstep` model that event
loop.  The service worker only forwards tab activations whose URL is truthy
(`tab.url && …`), so event well-formedness (`EvOk`) requires a non-empty URL
and a positive `Date.now()` value.
-/

/-- The mutable fields of `UsageMonitor`. -/
structure MonitorState where
  currentTabId : Option ℤ
  currentUrl : Option String
  sessionStartTime : Option ℕ
  isUserActive : Bool
  isBrowserFocused : Bool
  isEnabled : Bool
  trackedSites : List TrackedSite
deriving DecidableEq, Repr

/-- `UsageMonitor.matchTrackedSite`: first site in list order whose pattern
matches the URL. -/
def matchTrackedSite (sites : List TrackedSite) (url : String) : Option TrackedSite :=
  sites.find? fun site => matchPattern site.pattern url

/-- `UsageMonitor.endCurrentSession`: clear the session start time, but only
when both `sessionStartTime` and `currentUrl` are truthy. -/
def endCurrentSession (s : MonitorState) : MonitorState :=
  if truthyNum s.sessionStartTime && truthyStr s.currentUrl then
    { s with sessionStartTime := none }
  else s

/-- First phase of `onTabActivated`: end the previous session if the
recorded URL is truthy and differs from the new one. -/
def endPhase (url : String) (s : MonitorState) : MonitorState :=
  if truthyStr s.currentUrl && !(s.currentUrl == some url) then
    endCurrentSession s
  else s

/-- Second phase of `onTabActivated`: record the tab and URL, then start a
session (at `Date.now()` = `now`) when the URL matches a tracked site. -/
def tabArrive (url : String) (tabId : ℤ) (now : ℕ) (s : MonitorState) : MonitorState :=
  let s2 := { s with currentTabId := some tabId, currentUrl := some url }
  match matchTrackedSite s2.trackedSites url with
  | some _ => { s2 with sessionStartTime := some now }
  | none => s2

/-- `UsageMonitor.onTabActivated`: skip entirely when monitoring is
disabled; otherwise end phase then arrival phase. -/
def onTabActivated (url : String) (tabId : ℤ) (now : ℕ) (s : MonitorState) : MonitorState :=
  if s.isEnabled then tabArrive url tabId now (endPhase url s) else s

/-- `UsageMonitor.checkCurrentSession`: the duration it reports to the
session detector on a periodic check, or `none` when it skips (monitoring
disabled, user idle, browser unfocused, or no truthy session start). -/
def checkCurrentSession (s : MonitorState) (now : ℕ) : Option ℕ :=
  if s.isEnabled && s.isUserActive && s.isBrowserFocused && truthyNum s.sessionStartTime then
    s.sessionStartTime.map fun t => now - t
  else none

/-- Events the service worker forwards to the usage monitor
(`src/background/service-worker.ts`). -/
inductive MEvent where
  | tabActivated (url : String) (tabId : ℤ) (now : ℕ)
  | tabRemoved (tabId : ℤ)
  | browserBlurred
  | browserFocused
  | userIdle
  | userActive
  | enable
  | disable
  | reloadSites (sites : List TrackedSite)

/-- One step of the monitor's event loop, as wired up in the service worker:
tab removal ends the session only when the removed tab is the tracked one;
blur, idle and disable end the session after flipping their flag. -/
def mstep : MEvent → MonitorState → MonitorState
  | .tabActivated url tabId now, s => onTabActivated url tabId now s
  | .tabRemoved tabId, s =>
    if s.currentTabId == some tabId then endCurrentSession s else s
  | .browserBlurred, s => endCurrentSession { s with isBrowserFocused := false }
  | .browserFocused, s => { s with isBrowserFocused := true }
  | .userIdle, s => endCurrentSession { s with isUserActive := false }
  | .userActive, s => { s with isUserActive := true }
  | .enable, s => { s with isEnabled := true }
  | .disable, s => endCurrentSession { s with isEnabled := false }
  | .reloadSites sites, s => { s with trackedSites := sites }

/-- Event well-formedness: the service worker only forwards activations with
a truthy URL, and `Date.now()` is positive in any real execution. -/
def EvOk : MEvent → Prop
  | .tabActivated url _ now => url ≠ "" ∧ 0 < now
  | _ => True

/-- The monitor's fields right after construction: nothing recorded, user
active, browser focused; `isEnabled` is loaded from storage and the tracked
sites list from settings, so both are arbitrary. -/
def initState (sites : List TrackedSite) (enabled : Bool) : MonitorState :=
  ⟨none, none, none, true, true, enabled, sites⟩

/-- States the monitor can reach from construction under well-formed
events. -/
inductive Reachable : MonitorState → Prop
  | init : ∀ sites enabled, Reachable (initState sites enabled)
  | step : ∀ s e, Reachable s → EvOk e → Reachable (mstep e s)

/-- The usage monitor's session invariant: an active session has a positive
start time, a truthy recorded URL, and monitoring enabled; and any recorded
URL is non-empty. -/
def SessionInv (s : MonitorState) : Prop :=
  (∀ t, s.sessionStartTime = some t →
    0 < t ∧ s.isEnabled = true ∧ ∃ u, s.currentUrl = some u ∧ u ≠ "") ∧
  (∀ u, s.currentUrl = some u → u ≠ "")

/-! ## Session detector bookkeeping (`session-detector.ts`)

`updateDailyStats`, `endSession`, `resetTimer` and `recordInterventionResult`
act on the detector's `currentSession` and the persisted `DailyStats`
record.  `Record<string, number>` property read/assignment is modelled by
`lookupBreakdown`/`setBreakdown` on an association list.
-/

/-- Read `stats.siteBreakdown[name]`. -/
def lookupBreakdown : List (String × ℚ) → String → Option ℚ
  | [], _ => none
  | (k, v) :: rest, name => if k = name then some v else lookupBreakdown rest name

/-- Assign `stats.siteBreakdown[name] = v`: update in place, or append a new
property. -/
def setBreakdown : List (String × ℚ) → String → ℚ → List (String × ℚ)
  | [], name, v => [(name, v)]
  | (k, w) :: rest, name, v =>
    if k = name then (k, v) :: rest else (k, w) :: setBreakdown rest name v

/-- `SessionDetector.updateDailyStats`: fold one finished session into
today's stats.  `session.totalDuration / 60000` is the exact rational the
floating-point source computes for realistic durations. -/
def updateDailyStats (session : Session) (stats : DailyStats) : DailyStats :=
  let sessionMinutes : ℚ := (session.totalDuration : ℚ) / 60000
  { stats with
    totalMinutes := stats.totalMinutes + sessionMinutes
    sessionCount := stats.sessionCount + 1
    siteBreakdown :=
      setBreakdown stats.siteBreakdown session.siteName
        (((lookupBreakdown stats.siteBreakdown session.siteName).getD 0) + sessionMinutes) }

/-- The mutable state of `SessionDetector`. -/
structure DetectorState where
  currentSession : Option Session
deriving DecidableEq, Repr

/-- `SessionDetector.endSession`: record the final duration, fold the
session into the daily stats, and clear `currentSession`; a call with no
current session does nothing. -/
def endSession (finalDuration : ℕ) (det : DetectorState) (stats : DailyStats) :
    DetectorState × DailyStats :=
  match det.currentSession with
  | none => (det, stats)
  | some sess =>
    let sess2 := { sess with totalDuration := finalDuration }
    (⟨none⟩, updateDailyStats sess2 stats)

/-- `SessionDetector.resetTimer`: restart the timer of the current session,
when there is one. -/
def resetTimer (now : ℕ) (det : DetectorState) : DetectorState :=
  match det.currentSession with
  | none => det
  | some sess => ⟨some { sess with timerStartTime := now }⟩

/-- `SessionDetector.recordInterventionResult`: count the intervention, and
count the user's choice — `GO_BACK` also resets the session timer. -/
def recordInterventionResult (userChoice : String) (now : ℕ)
    (det : DetectorState) (stats : DailyStats) : DetectorState × DailyStats :=
  let stats1 := { stats with interventionsShown := stats.interventionsShown + 1 }
  if userChoice = "GO_BACK" then
    (resetTimer now det, { stats1 with goBackCount := stats1.goBackCount + 1 })
  else if userChoice = "PROCEED" then
    (det, { stats1 with proceedCount := stats1.proceedCount + 1 })
  else
    (det, stats1)

/-! ## Intervention scheduler (`src/background/intervention-scheduler.ts`) -/

/-- The scheduler's mutable state: the snooze deadline, if any. -/
structure SchedulerState where
  snoozedUntil : Option ℕ
deriving DecidableEq, Repr

/-- `InterventionScheduler.isSnoozed`: a falsy (`null` or `0`) deadline means
not snoozed; otherwise snoozed while `Date.now()` is before the deadline. -/
def isSnoozed (s : SchedulerState) (now : ℕ) : Bool :=
  match s.snoozedUntil with
  | none => false
  | some t => if t = 0 then false else decide (now < t)

/-- `InterventionScheduler.snooze`. -/
def snooze (durationMinutes : ℕ) (now : ℕ) (_s : SchedulerState) : SchedulerState :=
  ⟨some (now + durationMinutes * 60 * 1000)⟩

/-- `InterventionScheduler.shouldShowReminder`: never while snoozed;
otherwise exactly the `alwaysShowReminder` setting. -/
def shouldShowReminder (s : SchedulerState) (settings : Settings) (now : ℕ) : Bool :=
  if isSnoozed s now then false else settings.alwaysShowReminder

/-- `InterventionScheduler.shouldShowTimer`: never while snoozed; otherwise
when the session duration reaches the configured timer duration. -/
def shouldShowTimer (s : SchedulerState) (settings : Settings) (now sessionDuration : ℕ) : Bool :=
  if isSnoozed s now then false
  else decide (settings.timerDurationMinutes * 60 * 1000 ≤ sessionDuration)

/-- `InterventionScheduler.getRemainingSnoozeTime`: `0` on a falsy deadline,
otherwise `max(0, ceil((snoozedUntil - now) / 60000))` minutes. -/
def getRemainingSnoozeTime (s : SchedulerState) (now : ℕ) : ℤ :=
  match s.snoozedUntil with
  | none => 0
  | some t => if t = 0 then 0 else max 0 ⌈((t : ℚ) - (now : ℚ)) / 60000⌉

/-! ## Intervention engine (`intervention-engine.ts`)

`calculateWeights` builds a weight table from the intervention type and the
context; `weightedRandom` draws from it; `trackShownContent` maintains the
bounded recently-shown history; `candidatesForPool` is the recently-shown
filter of `getContentForType`.  The engine's only mutable state is the
static `lastShownContent` array; `calculateWeights` receives it here so that
independence from it is a provable statement rather than a modelling
artefact.
-/

/-- An intervention is a `REMINDER` (shown on arrival) or a `TIMER` alert. -/
inductive InterventionType where
  | REMINDER
  | TIMER
deriving DecidableEq, Repr

/-- The intervention context (`InterventionContext` in
`types/intervention.ts`). -/
structure InterventionContext where
  timeOfDay : ℤ
  dayOfWeek : ℤ
  isWeekend : Bool
  totalUsageToday : ℚ
  sessionCount : ℕ
  quickReopenAttempt : Bool
  streakDays : ℕ
  isOverGoal : Bool
deriving DecidableEq, Repr

/-- The content-type weight table (`Record<string, number>` with these fixed
eight keys in the source). -/
structure Weights where
  REFLECTION : ℚ
  TIME_ALTERNATIVE : ℚ
  BREATHING : ℚ
  STATS : ℚ
  QUOTE : ℚ
  ACTIVITY : ℚ
  EMOTIONAL : ℚ
  GAMIFICATION : ℚ
deriving DecidableEq, Repr

/-- The fixed base weight table of `calculateWeights`. -/
def baseWeights : Weights :=
  { REFLECTION := 40, TIME_ALTERNATIVE := 30, BREATHING := 20, STATS := 10
    QUOTE := 5, ACTIVITY := 15, EMOTIONAL := 0, GAMIFICATION := 0 }

/-- `InterventionEngine.calculateWeights`: the base table with the six
context-based overrides applied in source order.  The engine's mutable
history `hist` is passed in to reflect that the static method could read it;
the body, like the source, never does. -/
def calculateWeights (hist : List String) (ty : InterventionType)
    (ctx : InterventionContext) : Weights :=
  let _ := hist
  let w0 := baseWeights
  let isLateNight := decide (22 ≤ ctx.timeOfDay) || decide (ctx.timeOfDay ≤ 5)
  let isWeekendMorning :=
    ctx.isWeekend && decide (6 ≤ ctx.timeOfDay) && decide (ctx.timeOfDay ≤ 10)
  let isQuickReopen := ctx.quickReopenAttempt
  let isExtendedSession := ty == .TIMER
  let isOverGoal := ctx.isOverGoal
  let hasStreak := decide (7 ≤ ctx.streakDays)
  let w1 := if isLateNight then
    { w0 with ACTIVITY := 40, BREATHING := 30, REFLECTION := 20, TIME_ALTERNATIVE := 10 }
    else w0
  let w2 := if isWeekendMorning then
    { w1 with REFLECTION := 35, ACTIVITY := 35, TIME_ALTERNATIVE := 20 }
    else w1
  let w3 := if isQuickReopen then
    { w2 with REFLECTION := 60, EMOTIONAL := 25, QUOTE := 10 }
    else w2
  let w4 := if isExtendedSession then
    { w3 with TIME_ALTERNATIVE := 60, STATS := 20, BREATHING := 15 }
    else w3
  let w5 := if isOverGoal then
    { w4 with STATS := 35, REFLECTION := 30, QUOTE := 20 }
    else w4
  if hasStreak then { w5 with GAMIFICATION := 25, STATS := 25 } else w5

/-- Apply an override to the table when its condition holds. -/
def applyIf (b : Bool) (f : Weights → Weights) (w : Weights) : Weights :=
  if b then f w else w

/-- The specification's reading of `calculateWeights`: the fixed base table
with the listed context-based overrides applied in their fixed order, a
function of the type and context alone. -/
def specCalculateWeights (ty : InterventionType) (ctx : InterventionContext) : Weights :=
  applyIf (decide (7 ≤ ctx.streakDays))
    (fun w => { w with GAMIFICATION := 25, STATS := 25 })
    (applyIf ctx.isOverGoal
      (fun w => { w with STATS := 35, REFLECTION := 30, QUOTE := 20 })
      (applyIf (ty == .TIMER)
        (fun w => { w with TIME_ALTERNATIVE := 60, STATS := 20, BREATHING := 15 })
        (applyIf ctx.quickReopenAttempt
          (fun w => { w with REFLECTION := 60, EMOTIONAL := 25, QUOTE := 10 })
          (applyIf (ctx.isWeekend && decide (6 ≤ ctx.timeOfDay) && decide (ctx.timeOfDay ≤ 10))
            (fun w => { w with REFLECTION := 35, ACTIVITY := 35, TIME_ALTERNATIVE := 20 })
            (applyIf (decide (22 ≤ ctx.timeOfDay) || decide (ctx.timeOfDay ≤ 5))
              (fun w => { w with ACTIVITY := 40, BREATHING := 30, REFLECTION := 20, TIME_ALTERNATIVE := 10 })
              baseWeights)))))

/-- The accumulation loop of `weightedRandom`: subtract each weight from the
running random value and return the first key driving it to `≤ 0`; the final
fallback is `REFLECTION`. -/
def wrGo : ℚ → List (String × ℚ) → String
  | _, [] => "REFLECTION"
  | random, (ty, w) :: rest =>
    if random - w ≤ 0 then ty else wrGo (random - w) rest

/-- `InterventionEngine.weightedRandom` over the entries of the weight
table, with `Math.random()` passed in as `r`: keep the strictly positive
entries, fall back to `REFLECTION` when none remain, otherwise accumulate
from `r * totalWeight`. -/
def weightedRandom (weights : List (String × ℚ)) (r : ℚ) : String :=
  let activeWeights := weights.filter fun p => decide (0 < p.2)
  if activeWeights.isEmpty then "REFLECTION"
  else
    let totalWeight := (activeWeights.map Prod.snd).sum
    wrGo (r * totalWeight) activeWeights

/-- `InterventionEngine.MAX_HISTORY`. -/
def MAX_HISTORY : ℕ := 10

/-- `InterventionEngine.trackShownContent`: push the id, and shift the
oldest entry out when the bound is exceeded. -/
def trackShownContent (id : String) (hist : List String) : List String :=
  let pushed := hist ++ [id]
  if MAX_HISTORY < pushed.length then pushed.tail else pushed

/-- A pool item, reduced to the `id` field that the recently-shown filter of
`getContentForType` consults. -/
structure PoolItem where
  id : String
deriving DecidableEq, Repr

/-- The recently-shown filter of `getContentForType`: drop pool items whose
id is in the history, falling back to the whole pool when nothing
remains. -/
def candidatesForPool (pool : List PoolItem) (hist : List String) : List PoolItem :=
  let available := pool.filter fun item => !(hist.contains item.id)
  if available.isEmpty then pool else available

/-! ## CSS selector scoping (`content-script.ts`, `scopeSelector`)

Selector strings are modelled as character lists.  `splitComma` is
JavaScript `split(',')` (so `""` splits to `[""]`), `jsTrim` is
`String.prototype.trim`, `joinCommaSpace` is `join(', ')`, and `hasSubstr`
is `String.prototype.includes`.
-/

/-- JavaScript `split(',')` on a character list. -/
def splitComma : List Char → List (List Char)
  | [] => [[]]
  | c :: rest =>
    if c = ',' then [] :: splitComma rest
    else
      match splitComma rest with
      | [] => [[c]]
      | p :: ps => (c :: p) :: ps

/-- JavaScript `trim()`: drop whitespace from both ends. -/
def jsTrim (l : List Char) : List Char :=
  ((l.dropWhile Char.isWhitespace).reverse.dropWhile Char.isWhitespace).reverse

/-- JavaScript `join(', ')`. -/
def joinCommaSpace : List (List Char) → List Char
  | [] => []
  | [p] => p
  | p :: ps => p ++ ',' :: ' ' :: joinCommaSpace ps

/-- JavaScript `includes`: does `needle` occur as a contiguous substring? -/
def hasSubstr (needle hay : List Char) : Bool :=
  match hay with
  | [] => needle.isEmpty
  | _ :: t => needle.isPrefixOf hay || hasSubstr needle t

/-- The overlay root id the content script scopes every selector to. -/
def overlayRootId : List Char := "#thinkfast-overlay-root".toList

/-- The per-selector branch of `scopeSelector`: keep an already-scoped
selector; replace `:root`/`html`/`body`/`:host`/`*` by the root id; prefix a
leading pseudo-class directly; prefix anything else as a descendant. -/
def scopeOne (sel : List Char) : List Char :=
  if hasSubstr overlayRootId sel then sel
  else if sel = ":root".toList || sel = "html".toList || sel = "body".toList ||
      sel = ":host".toList || sel = "*".toList then overlayRootId
  else if sel.head? = some ':' then overlayRootId ++ sel
  else overlayRootId ++ ' ' :: sel

/-- `scopeSelector`: split on commas, trim each part, scope it, and join
with `', '`. -/
def scopeSelector (selector : List Char) : List Char :=
  joinCommaSpace (((splitComma selector).map jsTrim).map scopeOne)

/-! ## Concrete sample values (used to instantiate the theorems below) -/

/-- A sample tracked site. -/
def sampleSite : TrackedSite :=
  { pattern := "*://example.com/*", name := "Example", icon := none, dailyLimitMinutes := 30 }

/-- A sample session. -/
def sampleSession : Session :=
  { id := "s1", siteName := "Example", url := "https://example.com/a", startTime := 1000
    lastActiveTime := 2000, totalDuration := 0, timerStartTime := 1000
    lastTimerAlertTime := 0, dailyLimitMinutes := 30 }

/-- A sample daily statistics record. -/
def sampleStats : DailyStats :=
  { date := "2025-01-01", totalMinutes := 5, sessionCount := 2
    siteBreakdown := [("Example", 5)], interventionsShown := 1, goBackCount := 1
    proceedCount := 0, currentStreak := 3, longestStreak := 4 }

/-- Sample settings. -/
def sampleSettings : Settings :=
  { timerDurationMinutes := 1, alwaysShowReminder := true, trackedSites := [sampleSite] }

/-- A sample intervention context. -/
def sampleContext : InterventionContext :=
  { timeOfDay := 23, dayOfWeek := 2, isWeekend := false, totalUsageToday := 10
    sessionCount := 2, quickReopenAttempt := false, streakDays := 8, isOverGoal := true }

/-! ## Helper lemmas -/

/-- Assigning a breakdown key makes it readable: `lookupBreakdown` after
`setBreakdown` at the same key returns the assigned value. -/
lemma lookupBreakdown_setBreakdown_self (bd : List (String × ℚ)) (k : String) (v : ℚ) :
    lookupBreakdown (setBreakdown bd k v) k = some v := by
  induction bd with
  | nil => simp [setBreakdown, lookupBreakdown]
  | cons hd tl ih =>
    obtain ⟨k2, w⟩ := hd
    by_cases hk : k2 = k
    · simp [setBreakdown, lookupBreakdown, hk]
    · simp [setBreakdown, lookupBreakdown, hk, ih]

/-- One `trackShownContent` step preserves the history bound. -/
lemma trackShownContent_length_le (id : String) (hist : List String)
    (h : hist.length ≤ MAX_HISTORY) :
    (trackShownContent id hist).length ≤ MAX_HISTORY := by
  dsimp only [trackShownContent]
  split
  all_goals simp only [List.length_tail, List.length_append, List.length_singleton] at *
  all_goals omega

/-! ## Claims -/

/-- C4.  The content-selection weighting has no adaptive learning:
`calculateWeights` returns the same table for any two values of the engine's
mutable history (it is a function of the intervention type and the context
alone), and its output is exactly the fixed base table with the listed
context-based overrides applied in their fixed order
(`specCalculateWeights`). -/
theorem calculateWeights_deterministic :
    (∀ (h1 h2 : List String) (ty : InterventionType) (ctx : InterventionContext),
      calculateWeights h1 ty ctx = calculateWeights h2 ty ctx) ∧
    (∀ (h : List String) (ty : InterventionType) (ctx : InterventionContext),
      calculateWeights h ty ctx = specCalculateWeights ty ctx) := by
  refine ⟨fun h1 h2 ty ctx => rfl, fun h ty ctx => rfl⟩

/-- C5.  Ending a session with final duration `d` ms adds `d / 60000`
minutes to today's `totalMinutes` and to the session's site entry in
`siteBreakdown` (created at `0` when absent), increments `sessionCount` by
one, leaves the three intervention counters unchanged, and clears the
current session. -/
theorem endSession_updates_dailyStats (d : ℕ) (det : DetectorState)
    (stats : DailyStats) (sess : Session) (h : det.currentSession = some sess) :
    ((endSession d det stats).2.totalMinutes = stats.totalMinutes + (d : ℚ) / 60000) ∧
    (lookupBreakdown (endSession d det stats).2.siteBreakdown sess.siteName
      = some (((lookupBreakdown stats.siteBreakdown sess.siteName).getD 0) + (d : ℚ) / 60000)) ∧
    ((endSession d det stats).2.sessionCount = stats.sessionCount + 1) ∧
    ((endSession d det stats).2.interventionsShown = stats.interventionsShown) ∧
    ((endSession d det stats).2.goBackCount = stats.goBackCount) ∧
    ((endSession d det stats).2.proceedCount = stats.proceedCount) ∧
    ((endSession d det stats).1.currentSession = none) := by
  refine ⟨?_, ?_, ?_, ?_, ?_, ?_, ?_⟩
  · simp [endSession, h, updateDailyStats]
  · simp only [endSession, h, updateDailyStats]
    exact lookupBreakdown_setBreakdown_self ..
  · simp [endSession, h, updateDailyStats]
  · simp [endSession, h, updateDailyStats]
  · simp [endSession, h, updateDailyStats]
  · simp [endSession, h, updateDailyStats]
  · simp [endSession, h]

/-- Witness for C5 at a concrete session and stats record. -/
theorem endSession_updates_dailyStats_witness :
    ((endSession 120000 ⟨some sampleSession⟩ sampleStats).2.totalMinutes
      = sampleStats.totalMinutes + (120000 : ℚ) / 60000) ∧
    ((endSession 120000 ⟨some sampleSession⟩ sampleStats).2.sessionCount
      = sampleStats.sessionCount + 1) := by
  have h := endSession_updates_dailyStats 120000 ⟨some sampleSession⟩ sampleStats
    sampleSession rfl
  exact ⟨h.1, h.2.2.1⟩

/-- C6.  `recordInterventionResult` increments `interventionsShown` on every
call; on `GO_BACK` it increments `goBackCount` and resets the session timer
to the current time (when a session exists); on `PROCEED` it increments
`proceedCount`; on any other choice neither counter changes and the detector
state is untouched. -/
theorem recordInterventionResult_updates_once (choice : String) (now : ℕ)
    (det : DetectorState) (stats : DailyStats) :
    ((recordInterventionResult choice now det stats).2.interventionsShown
      = stats.interventionsShown + 1) ∧
    (choice = "GO_BACK" →
      (recordInterventionResult choice now det stats).2.goBackCount = stats.goBackCount + 1 ∧
      (recordInterventionResult choice now det stats).1 = resetTimer now det ∧
      ∀ sess, det.currentSession = some sess →
        (recordInterventionResult choice now det stats).1.currentSession
          = some { sess with timerStartTime := now }) ∧
    (choice ≠ "GO_BACK" →
      (recordInterventionResult choice now det stats).2.goBackCount = stats.goBackCount ∧
      (recordInterventionResult choice now det stats).1 = det) ∧
    (choice = "PROCEED" →
      (recordInterventionResult choice now det stats).2.proceedCount
        = stats.proceedCount + 1) ∧
    (choice ≠ "PROCEED" →
      (recordInterventionResult choice now det stats).2.proceedCount = stats.proceedCount) := by
  by_cases hg : choice = "GO_BACK"
  · refine ⟨?_, fun _ => ⟨?_, ?_, fun sess hs => ?_⟩, fun hc => absurd hg hc,
      fun hp => ?_, fun hp => ?_⟩
    · simp [recordInterventionResult, hg]
    · simp [recordInterventionResult, hg]
    · simp [recordInterventionResult, hg]
    · simp [recordInterventionResult, resetTimer, hg, hs]
    · rw [hg] at hp; simp at hp
    · simp [recordInterventionResult, hg]
  · by_cases hp : choice = "PROCEED"
    · refine ⟨?_, fun hc => absurd hc hg, fun _ => ⟨?_, ?_⟩, fun _ => ?_,
        fun hc => absurd hp hc⟩
      · simp [recordInterventionResult, hg, hp]
      · simp [recordInterventionResult, hg, hp]
      · simp [recordInterventionResult, hg, hp]
      · simp [recordInterventionResult, hg, hp]
    · refine ⟨?_, fun hc => absurd hc hg, fun _ => ⟨?_, ?_⟩, fun hc => absurd hc hp,
        fun _ => ?_⟩
      · simp [recordInterventionResult, hg, hp]
      · simp [recordInterventionResult, hg, hp]
      · simp [recordInterventionResult, hg, hp]
      · simp [recordInterventionResult, hg, hp]

/-- Witness for C6 at a concrete `GO_BACK` intervention. -/
theorem recordInterventionResult_updates_once_witness :
    ((recordInterventionResult "GO_BACK" 7 ⟨some sampleSession⟩ sampleStats).2.goBackCount
      = sampleStats.goBackCount + 1) ∧
    ((recordInterventionResult "GO_BACK" 7 ⟨some sampleSession⟩ sampleStats).1.currentSession
      = some { sampleSession with timerStartTime := 7 }) := by
  have h := recordInterventionResult_updates_once "GO_BACK" 7 ⟨some sampleSession⟩ sampleStats
  exact ⟨(h.2.1 rfl).1, (h.2.1 rfl).2.2 sampleSession rfl⟩

/-- C10.  The shown-content history is bounded by `MAX_HISTORY = 10`: one
`trackShownContent` step preserves the bound, any event sequence starting
from the empty history stays within it, and when every pool item's id is in
the history the candidate set of `getContentForType` falls back to the whole
pool. -/
theorem shownContent_history_bounded :
    (∀ (id : String) (hist : List String), hist.length ≤ MAX_HISTORY →
      (trackShownContent id hist).length ≤ MAX_HISTORY) ∧
    (∀ ids : List String,
      (ids.foldl (fun h i => trackShownContent i h) []).length ≤ MAX_HISTORY) ∧
    (∀ (pool : List PoolItem) (hist : List String),
      (∀ item ∈ pool, item.id ∈ hist) → candidatesForPool pool hist = pool) := by
  refine ⟨trackShownContent_length_le, fun ids => ?_, fun pool hist hmem => ?_⟩
  · have gen : ∀ (l : List String) (h : List String), h.length ≤ MAX_HISTORY →
        (l.foldl (fun h i => trackShownContent i h) h).length ≤ MAX_HISTORY := by
      intro l
      induction l with
      | nil => intro h hh; simpa using hh
      | cons x xs ih =>
        intro h hh
        exact ih (trackShownContent x h) (trackShownContent_length_le x h hh)
    exact gen ids [] (by simp [MAX_HISTORY])
  · have hfil : (pool.filter fun item => !(hist.contains item.id)) = [] := by
      rw [List.filter_eq_nil_iff]
      intro item hitem
      simp [hmem item hitem]
    simp only [candidatesForPool, hfil, List.isEmpty_nil, if_true]

/-- Witness for C10's bounded-step conjunct at a concrete history. -/
theorem shownContent_history_bounded_witness :
    (trackShownContent "k" ["a", "b", "c"]).length ≤ MAX_HISTORY := by
  exact shownContent_history_bounded.1 "k" ["a", "b", "c"] (by simp [MAX_HISTORY])

/-- The accumulation loop of `weightedRandom` returns a key of the list when
every weight in it is strictly positive and the running value does not
exceed the total. -/
lemma wrGo_mem (l : List (String × ℚ)) (rem : ℚ) (hpos : ∀ p ∈ l, 0 < p.2)
    (hle : rem ≤ (l.map Prod.snd).sum) (hne : l ≠ []) :
    ∃ w, (wrGo rem l, w) ∈ l ∧ 0 < w := by
  induction l generalizing rem with
  | nil => exact absurd rfl hne
  | cons hd tl ih =>
    obtain ⟨ty, w⟩ := hd
    by_cases hstop : rem - w ≤ 0
    · refine ⟨w, ?_, hpos (ty, w) (List.mem_cons_self ..)⟩
      simp [wrGo, hstop]
    · have hw : 0 < w := hpos (ty, w) (List.mem_cons_self ..)
      have hsum : rem - w ≤ (tl.map Prod.snd).sum := by
        simp only [List.map_cons, List.sum_cons] at hle
        linarith
      have htl : tl ≠ [] := by
        rintro rfl
        simp at hsum
        linarith
      obtain ⟨w2, hmem, hw2⟩ :=
        ih (rem - w) (fun p hp => hpos p (List.mem_cons_of_mem _ hp)) hsum htl
      refine ⟨w2, ?_, hw2⟩
      simp only [wrGo, if_neg hstop]
      exact List.mem_cons_of_mem _ hmem

/-- C3.  The weighted-random draw is sound: with `Math.random()` modelled as
`r ∈ [0, 1)`, `weightedRandom` returns a key whose weight in the table is
strictly positive whenever some entry is positive; it returns the fallback
`REFLECTION` when every entry is zero or negative; and on any input it
returns either a positively-weighted key or the fallback (the accumulation
always terminates with a key — the Lean definition is total by
construction). -/
theorem weightedRandom_sound (weights : List (String × ℚ)) (r : ℚ)
    (hr0 : 0 ≤ r) (hr1 : r < 1) :
    ((∃ p ∈ weights, 0 < p.2) →
      ∃ w, (weightedRandom weights r, w) ∈ weights ∧ 0 < w) ∧
    ((∀ p ∈ weights, p.2 ≤ 0) → weightedRandom weights r = "REFLECTION") ∧
    (weightedRandom weights r = "REFLECTION" ∨
      ∃ w, (weightedRandom weights r, w) ∈ weights ∧ 0 < w) := by
  have key : ¬ (weights.filter fun p => decide (0 < p.2)).isEmpty = true →
      ∃ w, (weightedRandom weights r, w) ∈ weights ∧ 0 < w := by
    intro hne
    set active := weights.filter fun p => decide (0 < p.2) with hactive
    have hposall : ∀ p ∈ active, 0 < p.2 := by
      intro p hp
      have := (List.mem_filter.mp hp).2
      simpa using this
    have hnenil : active ≠ [] := by
      intro h0
      rw [h0] at hne
      simp at hne
    have htot : 0 < (active.map Prod.snd).sum := by
      apply List.sum_pos
      · intro a ha
        obtain ⟨p, hp, rfl⟩ := List.mem_map.mp ha
        exact hposall p hp
      · simpa using hnenil
    have hlt : r * (active.map Prod.snd).sum ≤ (active.map Prod.snd).sum := by
      nlinarith
    obtain ⟨w, hmem, hw⟩ := wrGo_mem active (r * (active.map Prod.snd).sum)
      hposall hlt hnenil
    have hres : weightedRandom weights r = wrGo (r * (active.map Prod.snd).sum) active := by
      simp only [weightedRandom, ← hactive]
      rw [if_neg hne]
    refine ⟨w, ?_, hw⟩
    rw [hres]
    exact (List.mem_filter.mp hmem).1
  refine ⟨?_, ?_, ?_⟩
  · rintro ⟨p, hp, hppos⟩
    apply key
    intro hempty
    have : p ∈ weights.filter fun p => decide (0 < p.2) :=
      List.mem_filter.mpr ⟨hp, by simpa using hppos⟩
    rw [List.isEmpty_iff] at hempty
    rw [hempty] at this
    simp at this
  · intro hall
    have hfil : (weights.filter fun p => decide (0 < p.2)) = [] := by
      rw [List.filter_eq_nil_iff]
      intro p hp
      simpa using not_lt.mpr (hall p hp)
    simp [weightedRandom, hfil]
  · by_cases hempty : (weights.filter fun p => decide (0 < p.2)).isEmpty = true
    · left
      simp only [weightedRandom, if_pos hempty]
    · exact Or.inr (key hempty)

/-- Witness for C3: on a table with one positive entry the draw returns
it. -/
theorem weightedRandom_sound_witness :
    ∃ w, (weightedRandom [("BREATHING", (3 : ℚ))] (1 / 2), w)
        ∈ [("BREATHING", (3 : ℚ))] ∧ 0 < w := by
  exact (weightedRandom_sound [("BREATHING", 3)] (1 / 2) (by norm_num) (by norm_num)).1
    ⟨("BREATHING", 3), by simp, by norm_num⟩

/-- C9.  Snooze suppresses every intervention kind: `isSnoozed` holds
exactly when the current time is strictly before a recorded `snoozedUntil`;
while snoozed both `shouldShowReminder` and `shouldShowTimer` are `false`
regardless of settings and session duration; when not snoozed the timer
fires exactly when the session duration reaches
`timerDurationMinutes * 60 * 1000`; and the remaining snooze time is always
non-negative and `0` whenever not snoozed. -/
theorem snooze_suppresses_interventions (s : SchedulerState) (settings : Settings)
    (now dur : ℕ) :
    (isSnoozed s now = true ↔ ∃ t, s.snoozedUntil = some t ∧ now < t) ∧
    (isSnoozed s now = true →
      shouldShowReminder s settings now = false ∧
      shouldShowTimer s settings now dur = false) ∧
    (isSnoozed s now = false →
      (shouldShowTimer s settings now dur = true ↔
        settings.timerDurationMinutes * 60 * 1000 ≤ dur)) ∧
    (0 ≤ getRemainingSnoozeTime s now) ∧
    (isSnoozed s now = false → getRemainingSnoozeTime s now = 0) := by
  obtain ⟨u⟩ := s
  refine ⟨?_, fun hs => ?_, fun hs => ?_, ?_, fun hs => ?_⟩
  · cases u with
    | none => simp [isSnoozed]
    | some t =>
      by_cases ht : t = 0
      · subst ht
        simp [isSnoozed]
      · simp [isSnoozed, ht]
  · exact ⟨by simp [shouldShowReminder, hs], by simp [shouldShowTimer, hs]⟩
  · simp [shouldShowTimer, hs]
  · cases u with
    | none => simp [getRemainingSnoozeTime]
    | some t =>
      by_cases ht : t = 0
      · simp [getRemainingSnoozeTime, ht]
      · simp only [getRemainingSnoozeTime, if_neg ht]
        exact le_max_left 0 _
  · cases u with
    | none => simp [getRemainingSnoozeTime]
    | some t =>
      by_cases ht : t = 0
      · simp [getRemainingSnoozeTime, ht]
      · simp only [isSnoozed, if_neg ht, decide_eq_false_iff_not, not_lt] at hs
        have hnum : ((t : ℚ) - now) ≤ 0 := by
          rw [sub_nonpos]
          exact_mod_cast hs
        have hdiv : ((t : ℚ) - now) / 60000 ≤ 0 :=
          div_nonpos_of_nonpos_of_nonneg hnum (by norm_num)
        simp only [getRemainingSnoozeTime, if_neg ht]
        exact max_eq_left (Int.ceil_le.mpr (by exact_mod_cast hdiv))

/-- Witness for C9 at a concrete snoozed state. -/
theorem snooze_suppresses_interventions_witness :
    shouldShowTimer ⟨some 100000⟩ sampleSettings 10 999999999 = false := by
  exact ((snooze_suppresses_interventions ⟨some 100000⟩ sampleSettings 10 999999999).2.1
    (by simp [isSnoozed])).2

/-- `endCurrentSession` touches only `sessionStartTime`. -/
lemma endCurrentSession_fields (s : MonitorState) :
    (endCurrentSession s).currentUrl = s.currentUrl ∧
    (endCurrentSession s).currentTabId = s.currentTabId ∧
    (endCurrentSession s).isEnabled = s.isEnabled ∧
    (endCurrentSession s).trackedSites = s.trackedSites := by
  unfold endCurrentSession
  split <;> simp

/-- Under the session invariant's truthiness facts, `endCurrentSession`
always leaves no active session. -/
lemma endCurrentSession_none (s : MonitorState)
    (h : ∀ t, s.sessionStartTime = some t → 0 < t ∧ ∃ u, s.currentUrl = some u ∧ u ≠ "") :
    (endCurrentSession s).sessionStartTime = none := by
  unfold endCurrentSession
  cases hst : s.sessionStartTime with
  | none => simp [truthyNum, hst]
  | some t =>
    obtain ⟨hpos, u, hurl, hune⟩ := h t hst
    have h1 : truthyNum (some t) = true := by
      simp [truthyNum]
      omega
    have h2 : truthyStr s.currentUrl = true := by
      rw [hurl]
      simpa [truthyStr] using hune
    simp [hst, h1, h2]

/-- The session invariant holds in the initial state. -/
lemma sessionInv_initState (sites : List TrackedSite) (enabled : Bool) :
    SessionInv (initState sites enabled) := by
  constructor <;> intro x hx <;> simp [initState] at hx

/-- The session invariant is preserved by `endCurrentSession` applied to any
state sharing the invariant's truthiness facts. -/
lemma sessionInv_endCurrentSession (s : MonitorState)
    (h : ∀ t, s.sessionStartTime = some t → 0 < t ∧ ∃ u, s.currentUrl = some u ∧ u ≠ "")
    (h2 : ∀ u, s.currentUrl = some u → u ≠ "") :
    SessionInv (endCurrentSession s) := by
  constructor
  · intro t ht
    rw [endCurrentSession_none s h] at ht
    exact absurd ht (by simp)
  · intro u hu
    rw [(endCurrentSession_fields s).1] at hu
    exact h2 u hu

/-- The session invariant is preserved by every well-formed event. -/
lemma sessionInv_mstep (s : MonitorState) (e : MEvent) (hs : SessionInv s)
    (he : EvOk e) : SessionInv (mstep e s) := by
  obtain ⟨h1, h2⟩ := hs
  have h1w : ∀ t, s.sessionStartTime = some t →
      0 < t ∧ ∃ u, s.currentUrl = some u ∧ u ≠ "" :=
    fun t ht => ⟨(h1 t ht).1, (h1 t ht).2.2⟩
  cases e with
  | tabActivated url tabId now =>
    obtain ⟨hurl, hnow⟩ := he
    show SessionInv (onTabActivated url tabId now s)
    unfold onTabActivated
    by_cases hen : s.isEnabled
    · rw [if_pos hen]
      have hinv1 : SessionInv (endPhase url s) := by
        unfold endPhase
        split
        · exact sessionInv_endCurrentSession s h1w h2
        · exact ⟨h1, h2⟩
      have hen1 : (endPhase url s).isEnabled = true := by
        unfold endPhase
        split
        · rw [(endCurrentSession_fields s).2.2.1]
          exact hen
        · exact hen
      obtain ⟨g1, g2⟩ := hinv1
      unfold tabArrive
      dsimp only
      cases hm : matchTrackedSite (endPhase url s).trackedSites url with
      | some site =>
        refine ⟨fun t ht => ?_, fun u hu => (Option.some.injEq _ _ ▸ hu : url = u) ▸ hurl⟩
        have hnt : now = t := by injection ht
        exact ⟨hnt ▸ hnow, hen1, url, rfl, hurl⟩
      | none =>
        refine ⟨fun t ht => ?_, fun u hu => (Option.some.injEq _ _ ▸ hu : url = u) ▸ hurl⟩
        obtain ⟨hpos, _, _⟩ := g1 t ht
        exact ⟨hpos, hen1, url, rfl, hurl⟩
    · rw [if_neg hen]
      exact ⟨h1, h2⟩
  | tabRemoved tabId =>
    show SessionInv (if s.currentTabId == some tabId then endCurrentSession s else s)
    split
    · exact sessionInv_endCurrentSession s h1w h2
    · exact ⟨h1, h2⟩
  | browserBlurred =>
    exact sessionInv_endCurrentSession { s with isBrowserFocused := false }
      (fun t ht => h1w t ht) (fun u hu => h2 u hu)
  | browserFocused =>
    exact ⟨fun t ht => h1 t ht, fun u hu => h2 u hu⟩
  | userIdle =>
    exact sessionInv_endCurrentSession { s with isUserActive := false }
      (fun t ht => h1w t ht) (fun u hu => h2 u hu)
  | userActive =>
    exact ⟨fun t ht => h1 t ht, fun u hu => h2 u hu⟩
  | enable =>
    refine ⟨fun t ht => ?_, fun u hu => h2 u hu⟩
    obtain ⟨hpos, _, hu⟩ := h1 t ht
    exact ⟨hpos, rfl, hu⟩
  | disable =>
    exact sessionInv_endCurrentSession { s with isEnabled := false }
      (fun t ht => h1w t ht) (fun u hu => h2 u hu)
  | reloadSites sites =>
    exact ⟨fun t ht => h1 t ht, fun u hu => h2 u hu⟩

/-- Every reachable monitor state satisfies the session invariant. -/
lemma reachable_sessionInv (s : MonitorState) (h : Reachable s) : SessionInv s := by
  induction h with
  | init sites enabled => exact sessionInv_initState sites enabled
  | step s e _ hok ih => exact sessionInv_mstep s e ih hok

/-- `endCurrentSession` either leaves the session start time alone or clears
it. -/
lemma endCurrentSession_sessionStartTime (s : MonitorState) :
    (endCurrentSession s).sessionStartTime = s.sessionStartTime ∨
    (endCurrentSession s).sessionStartTime = none := by
  unfold endCurrentSession
  split
  · exact Or.inr rfl
  · exact Or.inl rfl

/-- `endPhase` preserves the tracked-sites list and the recorded URL, and
either preserves or clears the session start time. -/
lemma endPhase_fields (url : String) (s : MonitorState) :
    (endPhase url s).trackedSites = s.trackedSites ∧
    (endPhase url s).currentUrl = s.currentUrl ∧
    (endPhase url s).isEnabled = s.isEnabled ∧
    ((endPhase url s).sessionStartTime = s.sessionStartTime ∨
      (endPhase url s).sessionStartTime = none) := by
  unfold endPhase
  split
  · exact ⟨(endCurrentSession_fields s).2.2.2, (endCurrentSession_fields s).1,
      (endCurrentSession_fields s).2.2.1, endCurrentSession_sessionStartTime s⟩
  · exact ⟨rfl, rfl, rfl, Or.inl rfl⟩

/-- When the recorded URL is truthy and differs from the activated one, the
end phase of `onTabActivated` is exactly `endCurrentSession`. -/
lemma endPhase_eq_endCurrentSession (url : String) (s : MonitorState) (u : String)
    (hu : s.currentUrl = some u) (hne : u ≠ "") (hdiff : u ≠ url) :
    endPhase url s = endCurrentSession s := by
  unfold endPhase
  rw [if_pos]
  rw [hu]
  simp [truthyStr, hne, hdiff]

/-- `List.find?` returns the first satisfying element: the returned element
satisfies the predicate and everything before it falsifies it. -/
lemma find?_eq_some_first {α : Type} (p : α → Bool) (l : List α) (a : α)
    (h : l.find? p = some a) :
    p a = true ∧ ∃ pre post, l = pre ++ a :: post ∧ ∀ b ∈ pre, p b = false := by
  induction l with
  | nil => simp at h
  | cons x xs ih =>
    rw [List.find?_cons] at h
    cases hx : p x with
    | true =>
      rw [hx] at h
      obtain rfl : x = a := by injection h
      exact ⟨hx, [], xs, rfl, by simp⟩
    | false =>
      rw [hx] at h
      obtain ⟨hpa, pre, post, rfl, hpre⟩ := ih h
      refine ⟨hpa, x :: pre, post, rfl, ?_⟩
      intro b hb
      rcases List.mem_cons.mp hb with rfl | hb2
      · exact hx
      · exact hpre b hb2

/-- C1.  Sessions are bounded by tab/focus changes: in every reachable
monitor state at most one session is active and an active session is tied
to the recorded URL; browser blur and removal of the tracked tab always
leave no active session; a tab activation whose URL differs from the
recorded one can only leave a session started at that very activation; and
when monitoring is enabled such an activation decomposes as
`endCurrentSession` (which leaves no active session) followed by the
arrival phase, so the old session ends before any new one can start. -/
theorem session_bounded_by_tab_and_focus (s : MonitorState) (h : Reachable s) :
    (s.sessionStartTime.toList.length ≤ 1) ∧
    (∀ t, s.sessionStartTime = some t → ∃ u, s.currentUrl = some u ∧ u ≠ "") ∧
    ((mstep .browserBlurred s).sessionStartTime = none) ∧
    (∀ tabId, s.currentTabId = some tabId →
      (mstep (.tabRemoved tabId) s).sessionStartTime = none) ∧
    (∀ url tabId now u, s.currentUrl = some u → u ≠ url →
      ∀ t, (mstep (.tabActivated url tabId now) s).sessionStartTime = some t → t = now) ∧
    (∀ url tabId now u, s.isEnabled = true → s.currentUrl = some u → u ≠ url →
      (endCurrentSession s).sessionStartTime = none ∧
      mstep (.tabActivated url tabId now) s = tabArrive url tabId now (endCurrentSession s)) := by
  obtain ⟨h1, h2⟩ := reachable_sessionInv s h
  have h1w : ∀ t, s.sessionStartTime = some t →
      0 < t ∧ ∃ u, s.currentUrl = some u ∧ u ≠ "" :=
    fun t ht => ⟨(h1 t ht).1, (h1 t ht).2.2⟩
  refine ⟨?_, fun t ht => (h1 t ht).2.2, ?_, ?_, ?_, ?_⟩
  · cases s.sessionStartTime <;> simp
  · exact endCurrentSession_none _ (fun t ht => h1w t ht)
  · intro tabId htab
    show (if s.currentTabId == some tabId then endCurrentSession s else s).sessionStartTime = none
    have hc : (s.currentTabId == some tabId) = true := by
      rw [htab]
      simp
    rw [if_pos hc]
    exact endCurrentSession_none s h1w
  · intro url tabId now u hu hdiff t ht
    by_cases hen : s.isEnabled
    · have hne : u ≠ "" := h2 u hu
      have hend := endPhase_eq_endCurrentSession url s u hu hne hdiff
      have hmst : mstep (.tabActivated url tabId now) s
          = tabArrive url tabId now (endCurrentSession s) := by
        show onTabActivated url tabId now s = _
        rw [onTabActivated, if_pos hen, hend]
      rw [hmst] at ht
      unfold tabArrive at ht
      dsimp only at ht
      cases hm : matchTrackedSite (endCurrentSession s).trackedSites url with
      | some site =>
        rw [hm] at ht
        injection ht with ht2
        exact ht2.symm
      | none =>
        rw [hm] at ht
        dsimp only at ht
        rw [endCurrentSession_none s h1w] at ht
        exact absurd ht (by simp)
    · have hmst : mstep (.tabActivated url tabId now) s = s := by
        show onTabActivated url tabId now s = s
        rw [onTabActivated, if_neg hen]
      rw [hmst] at ht
      exact absurd (h1 t ht).2.1 hen
  · intro url tabId now u hen hu hdiff
    refine ⟨endCurrentSession_none s h1w, ?_⟩
    show onTabActivated url tabId now s = _
    rw [onTabActivated, if_pos hen,
      endPhase_eq_endCurrentSession url s u hu (h2 u hu) hdiff]

/-- Witness for C1 at a concrete reachable state with an active session:
blur ends it. -/
theorem session_bounded_by_tab_and_focus_witness :
    (mstep .browserBlurred
      (mstep (.tabActivated "https://example.com/a" 4 9) (initState [sampleSite] true))).sessionStartTime
      = none := by
  have hr : Reachable (mstep (.tabActivated "https://example.com/a" 4 9) (initState [sampleSite] true)) :=
    Reachable.step _ _ (Reachable.init [sampleSite] true) (by constructor <;> simp)
  exact (session_bounded_by_tab_and_focus _ hr).2.2.1

/-- C2.  Only user-designated websites are tracked: with monitoring enabled,
a tab activation starts a new session (the post-state's `sessionStartTime`
is the activation time) exactly when some tracked site's pattern matches
the URL; `matchTrackedSite` returns the first matching site in list order;
and an activation on a non-matching URL, when no session was running,
leaves the periodic usage check reporting nothing. -/
theorem onTabActivated_tracks_only_designated (s : MonitorState) (url : String)
    (tabId : ℤ) (now : ℕ) (h : Reachable s) (hen : s.isEnabled = true)
    (hurl : url ≠ "") (hfresh : ∀ t, s.sessionStartTime = some t → t < now) :
    ((onTabActivated url tabId now s).sessionStartTime = some now ↔
      (matchTrackedSite s.trackedSites url).isSome = true) ∧
    (matchTrackedSite s.trackedSites url = none → s.sessionStartTime = none →
      ∀ n2, checkCurrentSession (onTabActivated url tabId now s) n2 = none) ∧
    (∀ site, matchTrackedSite s.trackedSites url = some site →
      matchPattern site.pattern url = true ∧
      ∃ pre post, s.trackedSites = pre ++ site :: post ∧
        ∀ site2 ∈ pre, matchPattern site2.pattern url = false) := by
  obtain ⟨h1, h2⟩ := reachable_sessionInv s h
  have hsites : (endPhase url s).trackedSites = s.trackedSites := (endPhase_fields url s).1
  have hstep : onTabActivated url tabId now s = tabArrive url tabId now (endPhase url s) := by
    rw [onTabActivated, if_pos hen]
  have hstime : (onTabActivated url tabId now s).sessionStartTime
      = (if (matchTrackedSite s.trackedSites url).isSome then some now
        else (endPhase url s).sessionStartTime) := by
    rw [hstep]
    unfold tabArrive
    dsimp only
    rw [hsites]
    cases hm : matchTrackedSite s.trackedSites url with
    | some site => simp
    | none => simp
  refine ⟨?_, ?_, ?_⟩
  · constructor
    · intro hsome
      by_contra hns
      rw [hstime, if_neg (by simpa using hns)] at hsome
      rcases (endPhase_fields url s).2.2.2 with heq | heq
      · rw [heq] at hsome
        have := hfresh now hsome
        omega
      · rw [heq] at hsome
        exact absurd hsome (by simp)
    · intro hsome
      rw [hstime, if_pos hsome]
  · intro hnone hstart n2
    have hres : (onTabActivated url tabId now s).sessionStartTime = none := by
      rw [hstime, if_neg (by simp [hnone])]
      rcases (endPhase_fields url s).2.2.2 with heq | heq
      · rw [heq, hstart]
      · exact heq
    unfold checkCurrentSession
    rw [hres]
    simp [truthyNum]
  · intro site hm
    unfold matchTrackedSite at hm
    obtain ⟨hp, pre, post, heq, hpre⟩ :=
      find?_eq_some_first (fun st => matchPattern st.pattern url) s.trackedSites site hm
    exact ⟨hp, pre, post, heq, hpre⟩

/-- Witness for C2: activating a matching URL in a freshly constructed
monitor starts a session at the activation time. -/
theorem onTabActivated_tracks_only_designated_witness :
    (onTabActivated "https://example.com/a" 4 9 (initState [sampleSite] true)).sessionStartTime
      = some 9 := by
  refine ((onTabActivated_tracks_only_designated (initState [sampleSite] true)
    "https://example.com/a" 4 9 (Reachable.init [sampleSite] true) rfl (by decide)
    (fun t ht => by simp [initState] at ht)).1).mpr ?_
  decide

/-- Unfolding the translation one pattern character at a time. -/
lemma toRegexBody_cons (c : Char) (p : List Char) :
    toRegexBody (c :: p) =
      (if c = '.' then ['\\', '.'] else if c = '*' then ['.', '*']
        else if c = '?' then ['\\', '?'] else [c]) ++ toRegexBody p := by
  by_cases h1 : c = '.'
  · subst h1
    simp [toRegexBody, escapeDots, starToDotStar, escapeQmarks]
  · by_cases h2 : c = '*'
    · subst h2
      simp [toRegexBody, escapeDots, starToDotStar, escapeQmarks]
    · by_cases h3 : c = '?'
      · subst h3
        simp [toRegexBody, escapeDots, starToDotStar, escapeQmarks]
      · simp [toRegexBody, escapeDots, starToDotStar, escapeQmarks, h1, h2, h3]

/-- A plain pattern character is not a regex metacharacter. -/
lemma patternCharOk_not_meta (c : Char) (hc : patternCharOk c = true)
    (h1 : c ≠ '.') (h2 : c ≠ '*') (h3 : c ≠ '?') : isRegexMeta c = false := by
  simp only [patternCharOk, Bool.not_eq_true', Bool.or_eq_false_iff,
    decide_eq_false_iff_not] at hc
  simp only [isRegexMeta, Bool.or_eq_false_iff, decide_eq_false_iff_not]
  tauto

/-- Lexing an escaped character. -/
lemma lexAtoms_esc (c : Char) (body : List Char) :
    lexAtoms ('\\' :: c :: body) = (lexAtoms body).map (LexTok.atom (.rch c) :: ·) := by
  rw [lexAtoms.eq_def]
  norm_num

/-- Lexing a leading `.`. -/
lemma lexAtoms_dot (body : List Char) :
    lexAtoms ('.' :: body) = (lexAtoms body).map (LexTok.atom .rany :: ·) := by
  rw [lexAtoms.eq_def]
  simp only [if_neg (by decide : ¬('.' : Char) = '\\'), if_true, reduceIte]

/-- Lexing a leading `*`. -/
lemma lexAtoms_star (body : List Char) :
    lexAtoms ('*' :: body) = (lexAtoms body).map (LexTok.star :: ·) := by
  rw [lexAtoms.eq_def]
  simp only [if_neg (by decide : ¬('*' : Char) = '\\'),
    if_neg (by decide : ¬('*' : Char) = '.'), if_true, reduceIte]

/-- Lexing a leading ordinary character. -/
lemma lexAtoms_plain (c : Char) (body : List Char) (h1 : c ≠ '\\') (h2 : c ≠ '.')
    (h3 : c ≠ '*') (h4 : isRegexMeta c = false) :
    lexAtoms (c :: body) = (lexAtoms body).map (LexTok.atom (.rch c) :: ·) := by
  rw [lexAtoms.eq_def]
  simp only [if_neg h1, if_neg h2, if_neg h3, h4]
  rfl

/-- Lexing the translated regex text of a plain pattern yields exactly the
tokens described by the specification. -/
lemma lexAtoms_toRegexBody (p : List Char) (hp : p.all patternCharOk = true) :
    lexAtoms (toRegexBody p) = some (specLex p) := by
  induction p with
  | nil => rfl
  | cons c p2 ih =>
    rw [List.all_cons, Bool.and_eq_true] at hp
    obtain ⟨hc, hp2⟩ := hp
    have hbody := ih hp2
    rw [toRegexBody_cons]
    by_cases h1 : c = '.'
    · subst h1
      rw [if_pos rfl]
      show lexAtoms ('\\' :: '.' :: toRegexBody p2) = _
      rw [lexAtoms_esc, hbody, specLex, if_neg (by decide)]
      rfl
    · by_cases h2 : c = '*'
      · subst h2
        rw [if_neg h1, if_pos rfl]
        show lexAtoms ('.' :: '*' :: toRegexBody p2) = _
        rw [lexAtoms_dot, lexAtoms_star, hbody, specLex, if_pos rfl]
        rfl
      · by_cases h3 : c = '?'
        · subst h3
          rw [if_neg h1, if_neg h2, if_pos rfl]
          show lexAtoms ('\\' :: '?' :: toRegexBody p2) = _
          rw [lexAtoms_esc, hbody, specLex, if_neg (by decide)]
          rfl
        · rw [if_neg h1, if_neg h2, if_neg h3]
          have hbs : c ≠ '\\' := by
            intro hcc
            subst hcc
            simp [patternCharOk] at hc
          show lexAtoms (c :: toRegexBody p2) = _
          rw [lexAtoms_plain c _ hbs h1 h2 (patternCharOk_not_meta c hc h1 h2 h3),
            hbody, specLex, if_neg h2]
          rfl

/-- The specification tokens of a pattern never start with a quantifier. -/
lemma specLex_shape (p : List Char) :
    (specLex p = [] ∧ p = []) ∨ ∃ a rest, specLex p = LexTok.atom a :: rest := by
  cases p with
  | nil => exact Or.inl ⟨rfl, rfl⟩
  | cons c p2 =>
    right
    rw [specLex]
    by_cases h : c = '*'
    · exact ⟨.rany, _, by rw [if_pos h]⟩
    · exact ⟨.rch c, _, by rw [if_neg h]⟩

/-- Attaching quantifiers to the specification's lexical tokens yields the
specification's compiled tokens. -/
lemma groupStars_specLex (p : List Char) :
    groupStars (specLex p) = some (specToks p) := by
  induction p with
  | nil => rfl
  | cons c p2 ih =>
    rw [specLex, specToks]
    by_cases h : c = '*'
    · rw [if_pos h, if_pos h]
      show (groupStars (specLex p2)).map (fun ts => (RAtom.rany, true) :: ts) = _
      rw [ih]
      rfl
    · rw [if_neg h, if_neg h]
      rcases specLex_shape p2 with ⟨hnil, hpnil⟩ | ⟨a, rest, hcons⟩
      · rw [hnil, hpnil]
        rfl
      · rw [hcons]
        show (groupStars (LexTok.atom a :: rest)).map (fun ts => (RAtom.rch c, false) :: ts) = _
        rw [← hcons, ih]
        rfl

/-- Compiling the translated regex text of a plain pattern yields exactly
the tokens described by the specification. -/
lemma parseToks_toRegexBody (p : List Char) (hp : p.all patternCharOk = true) :
    parseToks (toRegexBody p) = some (specToks p) := by
  rw [parseToks, lexAtoms_toRegexBody p hp, Option.some_bind]
  exact groupStars_specLex p

/-- C7.  Tracked-site URL pattern matching follows the documented
translation: for every plain pattern (no character of the JavaScript regex
metacharacter set that the translation leaves unescaped), `matchPattern`
agrees with anchored matching of the regex described by the specification —
every `.` and `?` escaped, every `*` replaced by `.*` (`specToks`); in
particular `*` in the scheme position matches both `http` and `https`, `*`
in the host matches any subdomain, the escaped `.` does not match arbitrary
characters, and on a pattern whose regex construction throws (such as `[`)
the function returns `false` for every URL. -/
theorem matchPattern_translation :
    (∀ pattern url : String, patternOk pattern = true →
      matchPattern pattern url = rMatch (specToks pattern.toList) url.toList) ∧
    (matchPattern "*://example.com/w" "http://example.com/w" = true) ∧
    (matchPattern "*://example.com/w" "https://example.com/w" = true) ∧
    (matchPattern "*://*.example.com/*" "https://sub.example.com/watch" = true) ∧
    (matchPattern "https://example.com/a" "https://exampleXcom/a" = false) ∧
    (∀ url : String, matchPattern "[" url = false) := by
  refine ⟨?_, by decide, by decide, by decide, by decide, fun url => rfl⟩
  intro pattern url hok
  have h := parseToks_toRegexBody pattern.toList (by simpa [patternOk] using hok)
  simp only [matchPattern, h]

/-- Witness for C7's translation conjunct at a concrete plain pattern. -/
theorem matchPattern_translation_witness :
    matchPattern "a.b" "a.b" = rMatch (specToks "a.b".toList) "a.b".toList := by
  exact matchPattern_translation.1 "a.b" "a.b" (by decide)

/-- `splitComma` always produces at least one part. -/
lemma splitComma_ne_nil (l : List Char) : splitComma l ≠ [] := by
  cases l with
  | nil => simp [splitComma]
  | cons c rest =>
    rw [splitComma]
    split
    · simp
    · split <;> simp

/-- Parts produced by `splitComma` contain no comma. -/
lemma comma_not_mem_splitComma (l : List Char) (p : List Char)
    (h : p ∈ splitComma l) : ',' ∉ p := by
  induction l generalizing p with
  | nil =>
    rw [splitComma] at h
    simp at h
    simp [h]
  | cons c rest ih =>
    rw [splitComma] at h
    by_cases hc : c = ','
    · rw [if_pos hc] at h
      rcases List.mem_cons.mp h with rfl | h2
      · simp
      · exact ih p h2
    · rw [if_neg hc] at h
      cases hq : splitComma rest with
      | nil => exact absurd hq (splitComma_ne_nil rest)
      | cons q qs =>
        rw [hq] at h
        rcases List.mem_cons.mp h with rfl | h2
        · intro hmem
          rcases List.mem_cons.mp hmem with rfl | h3
          · exact hc rfl
          · exact ih q (hq ▸ List.mem_cons_self ..) h3
        · exact ih p (hq ▸ List.mem_cons_of_mem q h2)

/-- `splitComma` after a non-comma character extends the first part. -/
lemma splitComma_cons_of_ne (c : Char) (l : List Char) (hc : c ≠ ',') :
    ∀ q qs, splitComma l = q :: qs → splitComma (c :: l) = (c :: q) :: qs := by
  intro q qs h
  rw [splitComma, if_neg hc, h]

/-- `splitComma` of a comma-free prefix prepends it to the first part. -/
lemma splitComma_append (p l : List Char) (hp : ',' ∉ p) :
    ∀ q qs, splitComma l = q :: qs → splitComma (p ++ l) = (p ++ q) :: qs := by
  induction p with
  | nil => intro q qs h; simpa using h
  | cons c cs ih =>
    intro q qs h
    have hc : c ≠ ',' := fun hcc => hp (hcc ▸ List.mem_cons_self ..)
    have hcs : ',' ∉ cs := fun hmem => hp (List.mem_cons_of_mem c hmem)
    have := ih hcs q qs h
    simpa using splitComma_cons_of_ne c (cs ++ l) hc (cs ++ q) qs this

/-- `splitComma` of the joined scoped parts recovers them, the later ones
with the joining space attached. -/
lemma splitComma_join (p : List Char) (ps : List (List Char)) (hp : ',' ∉ p)
    (hps : ∀ x ∈ ps, ',' ∉ x) :
    splitComma (joinCommaSpace (p :: ps)) = p :: ps.map (fun q => ' ' :: q) := by
  induction ps generalizing p with
  | nil =>
    show splitComma p = [p]
    have := splitComma_append p [] hp [] [] rfl
    simpa using this
  | cons q qs ih =>
    show splitComma (p ++ ',' :: ' ' :: joinCommaSpace (q :: qs)) = _
    have hq : ',' ∉ q := hps q (List.mem_cons_self ..)
    have hqs : ∀ x ∈ qs, ',' ∉ x := fun x hx => hps x (List.mem_cons_of_mem q hx)
    have hrec := ih q hq hqs
    have hsp := splitComma_cons_of_ne ' ' (joinCommaSpace (q :: qs)) (by decide)
      _ _ hrec
    have hcm : splitComma (',' :: ' ' :: joinCommaSpace (q :: qs))
        = [] :: (' ' :: q) :: qs.map (fun x => ' ' :: x) := by
      rw [splitComma, if_pos rfl, hsp]
    have := splitComma_append p (',' :: ' ' :: joinCommaSpace (q :: qs)) hp _ _ hcm
    simpa using this

/-- A list is a prefix of itself followed by anything. -/
lemma isPrefixOf_append_self (n t : List Char) : n.isPrefixOf (n ++ t) = true := by
  induction n with
  | nil => simp [List.isPrefixOf]
  | cons c cs ih => simpa [List.isPrefixOf] using ih

/-- A prefix is a substring. -/
lemma hasSubstr_of_isPrefixOf (n hay : List Char) (h : n.isPrefixOf hay = true) :
    hasSubstr n hay = true := by
  cases hay with
  | nil =>
    cases n with
    | nil => rfl
    | cons c cs => simp [List.isPrefixOf] at h
  | cons c t =>
    rw [hasSubstr, h]
    simp

/-- A list occurs as a substring at the front of its own extension. -/
lemma hasSubstr_append_self (n t : List Char) : hasSubstr n (n ++ t) = true :=
  hasSubstr_of_isPrefixOf n (n ++ t) (isPrefixOf_append_self n t)

/-- Substring occurrence survives consing in front. -/
lemma hasSubstr_cons (n t : List Char) (c : Char) (h : hasSubstr n t = true) :
    hasSubstr n (c :: t) = true := by
  rw [hasSubstr, h]
  simp

/-- Every scoped selector part contains the overlay root id. -/
lemma scopeOne_contains (sel : List Char) :
    hasSubstr overlayRootId (scopeOne sel) = true := by
  unfold scopeOne
  split
  · assumption
  · split
    · decide
    · split
      · exact hasSubstr_append_self ..
      · exact hasSubstr_append_self ..

/-- An already-scoped selector part is returned unchanged. -/
lemma scopeOne_of_contains (sel : List Char)
    (h : hasSubstr overlayRootId sel = true) : scopeOne sel = sel := by
  unfold scopeOne
  rw [if_pos h]

/-- Trimming only removes characters. -/
lemma mem_of_mem_jsTrim (x : Char) (l : List Char) (h : x ∈ jsTrim l) : x ∈ l := by
  unfold jsTrim at h
  rw [List.mem_reverse] at h
  have h2 := (List.dropWhile_suffix (l := (l.dropWhile Char.isWhitespace).reverse)
    Char.isWhitespace).sublist.mem h
  rw [List.mem_reverse] at h2
  exact (List.dropWhile_suffix (l := l) Char.isWhitespace).sublist.mem h2

/-- Scoping a comma-free selector part stays comma-free. -/
lemma comma_not_mem_scopeOne (sel : List Char) (h : ',' ∉ sel) :
    ',' ∉ scopeOne sel := by
  unfold scopeOne
  split
  · exact h
  · split
    · decide
    · split
      · intro hmem
        rcases List.mem_append.mp hmem with h1 | h2
        · revert h1
          decide
        · exact h h2
      · intro hmem
        rcases List.mem_append.mp hmem with h1 | h2
        · revert h1
          decide
        · rcases List.mem_cons.mp h2 with h3 | h4
          · exact absurd h3 (by decide)
          · exact h h4

/-- The head surviving `dropWhile` falsifies the predicate. -/
lemma head?_dropWhile_not (l : List Char) (p : Char → Bool) (d : Char)
    (h : (l.dropWhile p).head? = some d) : p d = false := by
  induction l with
  | nil => simp at h
  | cons c cs ih =>
    rw [List.dropWhile_cons] at h
    by_cases hc : p c = true
    · rw [if_pos hc] at h
      exact ih h
    · rw [if_neg hc] at h
      injection h with h2
      subst h2
      simpa using hc

/-- `getLast?` looks only at a non-empty right factor. -/
lemma getLast?_append_right (w y : List Char) (h : y ≠ []) :
    (w ++ y).getLast? = y.getLast? := by
  rw [List.getLast?_append]
  cases hy : y.getLast? with
  | none => exact absurd (by simpa using hy) h
  | some d => rfl

/-- The first character of a trimmed string is not whitespace. -/
lemma jsTrim_head_not_ws (l : List Char) (d : Char)
    (h : (jsTrim l).head? = some d) : d.isWhitespace = false := by
  unfold jsTrim at h
  rw [List.head?_reverse] at h
  obtain ⟨w, hw⟩ := List.dropWhile_suffix
    (l := (l.dropWhile Char.isWhitespace).reverse) Char.isWhitespace
  have hyne : (l.dropWhile Char.isWhitespace).reverse.dropWhile Char.isWhitespace ≠ [] := by
    intro h0
    rw [h0] at h
    simp at h
  have hlast : (l.dropWhile Char.isWhitespace).reverse.getLast?
      = ((l.dropWhile Char.isWhitespace).reverse.dropWhile Char.isWhitespace).getLast? := by
    conv_lhs => rw [← hw]
    exact getLast?_append_right w _ hyne
  rw [List.getLast?_reverse] at hlast
  exact head?_dropWhile_not l Char.isWhitespace d (hlast.trans h)

/-- The last character of a trimmed string is not whitespace. -/
lemma jsTrim_getLast_not_ws (l : List Char) (d : Char)
    (h : (jsTrim l).getLast? = some d) : d.isWhitespace = false := by
  unfold jsTrim at h
  rw [List.getLast?_reverse] at h
  exact head?_dropWhile_not _ Char.isWhitespace d h

/-- `dropWhile` is the identity when the head already falsifies the
predicate. -/
lemma dropWhile_eq_self_of_head (l : List Char) (p : Char → Bool)
    (h : ∀ d, l.head? = some d → p d = false) : l.dropWhile p = l := by
  cases l with
  | nil => rfl
  | cons c cs =>
    rw [List.dropWhile_cons, if_neg (by simp [h c rfl])]

/-- A string whose ends are not whitespace trims to itself. -/
lemma jsTrim_eq_self (l : List Char)
    (hh : ∀ d, l.head? = some d → d.isWhitespace = false)
    (hl : ∀ d, l.getLast? = some d → d.isWhitespace = false) : jsTrim l = l := by
  unfold jsTrim
  rw [dropWhile_eq_self_of_head l Char.isWhitespace hh,
    dropWhile_eq_self_of_head l.reverse Char.isWhitespace
      (fun d hd => hl d (by rwa [List.head?_reverse] at hd)),
    List.reverse_reverse]

/-- Trimming is idempotent. -/
lemma jsTrim_idem (l : List Char) : jsTrim (jsTrim l) = jsTrim l :=
  jsTrim_eq_self (jsTrim l) (jsTrim_head_not_ws l) (jsTrim_getLast_not_ws l)

/-- A leading space is removed by trimming. -/
lemma jsTrim_cons_space (l : List Char) : jsTrim (' ' :: l) = jsTrim l := by
  unfold jsTrim
  rw [List.dropWhile_cons, if_pos (by decide)]

/-- Scoped parts built from non-empty trimmed selectors are themselves
trimmed. -/
lemma jsTrim_scopeOne (part : List Char) (hne : jsTrim part ≠ []) :
    jsTrim (scopeOne (jsTrim part)) = scopeOne (jsTrim part) := by
  have hh : ∀ d, (jsTrim part).head? = some d → d.isWhitespace = false :=
    jsTrim_head_not_ws part
  have hl : ∀ d, (jsTrim part).getLast? = some d → d.isWhitespace = false :=
    jsTrim_getLast_not_ws part
  unfold scopeOne
  split
  · exact jsTrim_eq_self _ hh hl
  · split
    · decide
    · split
      · refine jsTrim_eq_self _ (fun d hd => ?_) (fun d hd => ?_)
        · rw [show (overlayRootId ++ jsTrim part).head? = some '#' from rfl] at hd
          injection hd with hd2
          subst hd2
          decide
        · rw [getLast?_append_right _ _ hne] at hd
          exact hl d hd
      · refine jsTrim_eq_self _ (fun d hd => ?_) (fun d hd => ?_)
        · rw [show (overlayRootId ++ ' ' :: jsTrim part).head? = some '#' from rfl] at hd
          injection hd with hd2
          subst hd2
          decide
        · rw [show overlayRootId ++ ' ' :: jsTrim part
              = (overlayRootId ++ [' ']) ++ jsTrim part by simp] at hd
          rw [getLast?_append_right _ _ hne] at hd
          exact hl d hd

/-- The comma-split of a scoped selector: the scoped parts, the later ones
with the joining space attached. -/
lemma splitComma_scopeSelector (sel : List Char) :
    ∃ q qs, ((splitComma sel).map jsTrim).map scopeOne = q :: qs ∧
      splitComma (scopeSelector sel) = q :: qs.map (fun x => ' ' :: x) := by
  have hparts : ∃ p0 prest, splitComma sel = p0 :: prest := by
    cases h : splitComma sel with
    | nil => exact absurd h (splitComma_ne_nil sel)
    | cons p0 prest => exact ⟨p0, prest, rfl⟩
  obtain ⟨p0, prest, hparts⟩ := hparts
  refine ⟨scopeOne (jsTrim p0), (prest.map jsTrim).map scopeOne, ?_, ?_⟩
  · rw [hparts]
    simp
  · show splitComma (joinCommaSpace (((splitComma sel).map jsTrim).map scopeOne)) = _
    rw [hparts]
    simp only [List.map_cons]
    apply splitComma_join
    · exact comma_not_mem_scopeOne _ (fun hmem =>
        comma_not_mem_splitComma sel p0 (hparts ▸ List.mem_cons_self ..)
          (mem_of_mem_jsTrim _ _ hmem))
    · intro x hx
      rw [List.map_map] at hx
      obtain ⟨p, hp, rfl⟩ := List.mem_map.mp hx
      exact comma_not_mem_scopeOne _ (fun hmem =>
        comma_not_mem_splitComma sel p (hparts ▸ List.mem_cons_of_mem p0 hp)
          (mem_of_mem_jsTrim _ _ hmem))

/-- C8 (counterexample to idempotence as originally stated): on the empty
selector the first application of `scopeSelector` produces a trailing
space, which the second application trims away. -/
theorem scopeSelector_not_idempotent_on_empty :
    scopeSelector (scopeSelector "".toList) ≠ scopeSelector "".toList := by
  decide

/-- C8 (amended).  Every comma-separated part of `scopeSelector`'s output
contains `#thinkfast-overlay-root`; the selectors `:root`, `html`, `body`,
`:host` and `*` are replaced by `#thinkfast-overlay-root` itself; and
`scopeSelector` is idempotent on every selector all of whose
comma-separated parts are non-empty after trimming. -/
theorem scopeSelector_scopes_every_part :
    (∀ (sel : List Char), ∀ part ∈ splitComma (scopeSelector sel),
      hasSubstr overlayRootId part = true) ∧
    (scopeOne ":root".toList = overlayRootId ∧ scopeOne "html".toList = overlayRootId ∧
      scopeOne "body".toList = overlayRootId ∧ scopeOne ":host".toList = overlayRootId ∧
      scopeOne "*".toList = overlayRootId) ∧
    (∀ (sel : List Char), (∀ p ∈ splitComma sel, jsTrim p ≠ []) →
      scopeSelector (scopeSelector sel) = scopeSelector sel) := by
  refine ⟨?_, ⟨by decide, by decide, by decide, by decide, by decide⟩, ?_⟩
  · intro sel part hmem
    obtain ⟨q, qs, hL, hsplit⟩ := splitComma_scopeSelector sel
    have himg : ∀ x ∈ ((splitComma sel).map jsTrim).map scopeOne,
        hasSubstr overlayRootId x = true := by
      intro x hx
      rw [List.map_map] at hx
      obtain ⟨p, _, rfl⟩ := List.mem_map.mp hx
      exact scopeOne_contains _
    rw [hsplit] at hmem
    rcases List.mem_cons.mp hmem with rfl | h2
    · exact himg part (hL ▸ List.mem_cons_self ..)
    · obtain ⟨x, hx, rfl⟩ := List.mem_map.mp h2
      exact hasSubstr_cons _ _ _ (himg x (hL ▸ List.mem_cons_of_mem q hx))
  · intro sel hne
    obtain ⟨q, qs, hL, hsplit⟩ := splitComma_scopeSelector sel
    have himg : ∀ x ∈ ((splitComma sel).map jsTrim).map scopeOne,
        jsTrim x = x ∧ scopeOne x = x := by
      intro x hx
      rw [List.map_map] at hx
      obtain ⟨p, hp, rfl⟩ := List.mem_map.mp hx
      exact ⟨jsTrim_scopeOne p (hne p hp),
        scopeOne_of_contains _ (scopeOne_contains _)⟩
    have hq := himg q (hL ▸ List.mem_cons_self ..)
    have hqs : ∀ x ∈ qs, jsTrim x = x ∧ scopeOne x = x :=
      fun x hx => himg x (hL ▸ List.mem_cons_of_mem q hx)
    show joinCommaSpace (((splitComma (scopeSelector sel)).map jsTrim).map scopeOne)
        = scopeSelector sel
    rw [hsplit]
    simp only [List.map_cons, List.map_map]
    rw [hq.1, hq.2]
    have htail : qs.map (scopeOne ∘ jsTrim ∘ fun x => ' ' :: x) = qs := by
      have := List.map_congr_left (l := qs)
        (f := scopeOne ∘ jsTrim ∘ fun x => ' ' :: x) (g := id) ?_
      · simpa using this
      · intro x hx
        show scopeOne (jsTrim (' ' :: x)) = x
        rw [jsTrim_cons_space, (hqs x hx).1, (hqs x hx).2]
    rw [htail, ← hL]
    rfl

/-- Witness for C8's idempotence conjunct at a concrete selector with
non-empty parts. -/
theorem scopeSelector_scopes_every_part_witness :
    scopeSelector (scopeSelector ".a, body".toList) = scopeSelector ".a, body".toList := by
  exact scopeSelector_scopes_every_part.2.2 ".a, body".toList (by decide)
